import Mathlib

/-!
Verification of firestore-cli (welociraptor/firestore-cli).

Shallow embedding of `firestore-cli.go`: the iteration loop (`iterate`),
the JSON renderer (`jsonString`, backed by an extensional model of Go's
`encoding/json` Marshal / MarshalIndent over a dynamic value type), the
query-value coercion in `where` (backed by a model of
`strconv.ParseInt(s, 10, 32)`), the required-parameter validation and
pre-run pipeline, and the configuration loader `initConfig`.

Strings are modelled as `List Char` throughout; machine ints as `Int`
(Go `int` arithmetic in this program never approaches overflow).
Errors are their messages (`List Char`); `errors.Wrap(err, msg)` of
pkg/errors produces the message `msg ++ ": " ++ cause`.
-/

namespace FirestoreCli

/-- pkg/errors `errors.Wrap`: the wrapped error's message is
`ctx: cause`. -/
def wrapMsg (ctx cause : List Char) : List Char :=
  ctx ++ ':' :: ' ' :: cause

/-- Hexadecimal digit characters, used by the JSON string escaper and
the decimal formatter (decimal digits are the first ten). -/
def hexDig : Nat → Char
  | 0 => '0' | 1 => '1' | 2 => '2' | 3 => '3' | 4 => '4'
  | 5 => '5' | 6 => '6' | 7 => '7' | 8 => '8' | 9 => '9'
  | 10 => 'a' | 11 => 'b' | 12 => 'c' | 13 => 'd' | 14 => 'e'
  | _ => 'f'

/-- Decimal rendering of a natural number, fuel-indexed so that it is
structurally recursive (the fuel `n+1` always suffices since `n / 10`
strictly decreases). -/
def natCharsAux : Nat → Nat → List Char → List Char
  | 0, _, acc => acc
  | fuel + 1, n, acc =>
    if n < 10 then hexDig n :: acc
    else natCharsAux fuel (n / 10) (hexDig (n % 10) :: acc)

/-- Decimal rendering of a natural number. -/
def natChars (n : Nat) : List Char := natCharsAux (n + 1) n []

/-- Decimal rendering of an integer, as Go's `strconv.FormatInt(i, 10)`
(used by encoding/json for int64 values). -/
def intChars (i : Int) : List Char :=
  if i < 0 then '-' :: natChars (-i).toNat else natChars i.toNat

/-- Go encoding/json string escaping for one character (default HTML
escaping on, as `json.Marshal` uses): quote and backslash get two-char
escapes, newline/carriage-return/tab get short escapes, other control
characters and the HTML-significant `<`, `>`, `&` become `\u00XX`-style
sequences. -/
def escapeChar (c : Char) : List Char :=
  if c = '"' then ['\\', '"']
  else if c = '\\' then ['\\', '\\']
  else if c = '\n' then ['\\', 'n']
  else if c = '\r' then ['\\', 'r']
  else if c = '\t' then ['\\', 't']
  else if c = '<' then ['\\', 'u', '0', '0', '3', 'c']
  else if c = '>' then ['\\', 'u', '0', '0', '3', 'e']
  else if c = '&' then ['\\', 'u', '0', '0', '2', '6']
  else if c.toNat < 32 then
    ['\\', 'u', '0', '0', hexDig (c.toNat / 16), hexDig (c.toNat % 16)]
  else [c]

/-- Escaped body of a JSON string literal. -/
def escBody : List Char → List Char
  | [] => []
  | c :: cs => escapeChar c ++ escBody cs

/-- A JSON string literal: quote, escaped body, quote. -/
def quoteStr (s : List Char) : List Char :=
  '"' :: escBody s ++ ['"']

mutual
/-- Dynamically-typed document field values, as produced by
`DocumentSnapshot.Data()` (`map[string]interface{}`): null, bool,
integer, string, array, nested map — plus `vunsup`, standing for any Go
value `encoding/json` cannot marshal (channel, function, NaN, ...). -/
inductive Value where
  | vnull : Value
  | vbool : Bool → Value
  | vint : Int → Value
  | vstr : List Char → Value
  | varr : ValueList → Value
  | vobj : FieldList → Value
  | vunsup : Value

/-- A list of JSON values (array elements). -/
inductive ValueList where
  | nil : ValueList
  | cons : Value → ValueList → ValueList

/-- A document field map: orderered key/value pairs. -/
inductive FieldList where
  | nil : FieldList
  | cons : List Char → Value → FieldList → FieldList
end

mutual
/-- Whether `encoding/json` can marshal the value (no `vunsup`
anywhere inside). -/
def vsupported : Value → Bool
  | .vnull => true
  | .vbool _ => true
  | .vint _ => true
  | .vstr _ => true
  | .varr xs => lsupported xs
  | .vobj fs => fsupported fs
  | .vunsup => false

def lsupported : ValueList → Bool
  | .nil => true
  | .cons v tl => vsupported v && lsupported tl

def fsupported : FieldList → Bool
  | .nil => true
  | .cons _ v tl => vsupported v && fsupported tl
end

mutual
/-- Compact serialization, as Go `json.Marshal` emits it for supported
values (no whitespace anywhere outside string literals). -/
def cser : Value → List Char
  | .vnull => ['n', 'u', 'l', 'l']
  | .vbool true => ['t', 'r', 'u', 'e']
  | .vbool false => ['f', 'a', 'l', 's', 'e']
  | .vint i => intChars i
  | .vstr s => quoteStr s
  | .varr xs => '[' :: cserL xs ++ [']']
  | .vobj fs => '{' :: cserF fs ++ ['}']
  | .vunsup => []

/-- Compact serialization of array elements, comma-separated. -/
def cserL : ValueList → List Char
  | .nil => []
  | .cons v .nil => cser v
  | .cons v tl => cser v ++ ',' :: cserL tl

/-- Compact serialization of object fields, `"key":value`,
comma-separated. -/
def cserF : FieldList → List Char
  | .nil => []
  | .cons k v .nil => quoteStr k ++ ':' :: cser v
  | .cons k v tl => (quoteStr k ++ ':' :: cser v) ++ ',' :: cserF tl
end

/-- Indentation at nesting depth `d` for
`json.MarshalIndent(v, "", "  ")`: `2*d` spaces. -/
def indent (d : Nat) : List Char := List.replicate (2 * d) ' '

mutual
/-- Indented serialization at depth `d`, as Go
`json.MarshalIndent(v, "", "  ")` emits it: compound values open with a
newline, put each element on its own indented line, separate elements
with `,\n`, close on a fresh line at the enclosing depth; empty arrays
and objects stay `[]` / `{}`; object colons are followed by one
space. -/
def pser : Value → Nat → List Char
  | .vnull, _ => ['n', 'u', 'l', 'l']
  | .vbool true, _ => ['t', 'r', 'u', 'e']
  | .vbool false, _ => ['f', 'a', 'l', 's', 'e']
  | .vint i, _ => intChars i
  | .vstr s, _ => quoteStr s
  | .varr .nil, _ => ['[', ']']
  | .varr (.cons v tl), d =>
    '[' :: '\n' :: pserL (.cons v tl) (d + 1) ++ '\n' :: indent d ++ [']']
  | .vobj .nil, _ => ['{', '}']
  | .vobj (.cons k v tl), d =>
    '{' :: '\n' :: pserF (.cons k v tl) (d + 1) ++ '\n' :: indent d ++ ['}']
  | .vunsup, _ => []

/-- Indented array elements: each on its own line at depth `d`,
separated by `,\n`. -/
def pserL : ValueList → Nat → List Char
  | .nil, _ => []
  | .cons v .nil, d => indent d ++ pser v d
  | .cons v tl, d => indent d ++ pser v d ++ ',' :: '\n' :: pserL tl d

/-- Indented object fields: `"key": value` on its own line at depth
`d`, separated by `,\n`. -/
def pserF : FieldList → Nat → List Char
  | .nil, _ => []
  | .cons k v .nil, d => indent d ++ quoteStr k ++ ':' :: ' ' :: pser v d
  | .cons k v tl, d =>
    (indent d ++ quoteStr k ++ ':' :: ' ' :: pser v d) ++ ',' :: '\n' :: pserF tl d
end

/-- The marshal error message (stands for Go's
`json: unsupported type` family). -/
def unsupMsg : List Char := "unsupported type".toList

/-- Extensional model of `json.Marshal`: fails exactly when the value
contains something the encoder cannot represent, otherwise emits the
compact encoding. -/
def jsonMarshal (v : Value) : Except (List Char) (List Char) :=
  if vsupported v then .ok (cser v) else .error unsupMsg

/-- Extensional model of `json.MarshalIndent(v, "", "  ")`. -/
def jsonMarshalIndent (v : Value) : Except (List Char) (List Char) :=
  if vsupported v then .ok (pser v 0) else .error unsupMsg

/-- `jsonString` from firestore-cli.go: marshal the document field map,
indented when the `prettyprint` setting is on, compact otherwise;
a marshal failure is wrapped with a contextual message. -/
def jsonString (pretty : Bool) (docData : FieldList) : Except (List Char) (List Char) :=
  match (if pretty then jsonMarshalIndent (.vobj docData) else jsonMarshal (.vobj docData)) with
  | .error e => .error (wrapMsg "unable to marshal document to json".toList e)
  | .ok s => .ok s

/-! ## Whitespace erasure

A one-pass scanner over emitted JSON text that removes the whitespace
characters the indenter may insert (space and newline) wherever they
stand outside a string literal, tracking the in-string and
just-after-backslash states. `stripJsonWs pretty = compact` is the
formal content of "toggling pretty-print changes only whitespace". -/

/-- Scanner state transition for one character:
`(inString, afterBackslash)`. -/
def wsStep (c : Char) (inStr esc : Bool) : Bool × Bool :=
  if inStr then
    if esc then (true, false)
    else if c = '"' then (false, false)
    else if c = '\\' then (true, true)
    else (true, false)
  else
    if c = '"' then (true, false) else (false, false)

/-- Whether the scanner keeps the character: everything inside strings,
and everything except space/newline outside them. -/
def wsKeep (c : Char) (inStr : Bool) : Bool :=
  if inStr then true else !(c = ' ' || c = '\n')

/-- Erase insertable whitespace outside string literals. -/
def ews : List Char → Bool → Bool → List Char
  | [], _, _ => []
  | c :: cs, inStr, esc =>
    (if wsKeep c inStr then [c] else []) ++
      ews cs (wsStep c inStr esc).1 (wsStep c inStr esc).2

/-- Final scanner state after a chunk of text. -/
def wsSt : List Char → Bool → Bool → Bool × Bool
  | [], inStr, esc => (inStr, esc)
  | c :: cs, inStr, esc => wsSt cs (wsStep c inStr esc).1 (wsStep c inStr esc).2

/-- Top-level whitespace erasure, starting outside any string. -/
def stripJsonWs (s : List Char) : List Char := ews s false false

/-! ## The `where` command's value coercion -/

/-- Decimal digit value of a character. -/
def digVal (c : Char) : Nat := c.toNat - '0'.toNat

/-- Model of Go `strconv.ParseInt(s, 10, 32)`, extensionally: an
optional single `+`/`-` sign followed by at least one decimal digit,
accumulated left to right (Go's overflow cutoffs make the result an
error exactly when the value leaves the 32-bit range, which is what the
final range checks express). Returns `none` where Go returns a non-nil
error. -/
def goParseInt32 (s : List Char) : Option Int :=
  match s with
  | [] => none
  | c0 :: rest =>
    let neg : Bool := c0 = '-'
    let ds : List Char := if c0 = '+' || c0 = '-' then rest else c0 :: rest
    if ds.isEmpty then none
    else if ds.all Char.isDigit then
      let v : Nat := ds.foldl (fun a c => a * 10 + digVal c) 0
      if neg then
        if v ≤ 2 ^ 31 then some (-(v : Int)) else none
      else
        if v < 2 ^ 31 then some (v : Int) else none
    else none

/-- A query predicate's value: integer-typed or string-typed. -/
inductive WhereVal where
  | intV : Int → WhereVal
  | strV : List Char → WhereVal
deriving DecidableEq

/-- The coercion in `where` (firestore-cli.go): use the parsed integer
when `strconv.ParseInt(arg, 10, 32)` returns no error, otherwise keep
the literal argument string. -/
def whereValue (arg : List Char) : WhereVal :=
  match goParseInt32 arg with
  | some n => .intV n
  | none => .strV arg

/-- The single-field query predicate built by `where`. -/
structure Predicate where
  field : List Char
  op : List Char
  value : WhereVal
deriving DecidableEq

/-- Predicate construction from the three positional arguments. -/
def mkPredicate (field op arg : List Char) : Predicate :=
  ⟨field, op, whereValue arg⟩

/-- Spec-side characterization, following the spec's words: the literal
is an optional sign and a nonempty run of base-10 digits whose
positional value (most-significant digit first) lies in the 32-bit
integer range `[-2^31, 2^31 - 1]`. Written independently of
`goParseInt32` (positional value computed from the right) so that the
agreement theorem compares two genuinely different readings. -/
def decValRev : List Char → Nat
  | [] => 0
  | d :: tl => digVal d + 10 * decValRev tl

/-- Positional value of a digit string, most-significant first. -/
def decVal (ds : List Char) : Nat := decValRev ds.reverse

/-- Spec-side parse: the signed positional value when the literal is a
well-formed base-10 integer (optional sign, nonempty digit run) whose
signed value lies in the 32-bit range `[-2^31, 2^31 - 1]`; `none`
otherwise. -/
def specInt32 (s : List Char) : Option Int :=
  match s with
  | [] => none
  | c0 :: rest =>
    let ds : List Char := if c0 = '+' || c0 = '-' then rest else c0 :: rest
    if ds.isEmpty then none
    else if ds.all Char.isDigit then
      let n : Int := if c0 = '-' then -(decVal ds : Int) else (decVal ds : Int)
      if -(2 ^ 31) ≤ n ∧ n ≤ 2 ^ 31 - 1 then some n else none
    else none

/-! ## The iteration loop -/

/-- One event of a store stream, as the loop in `iterate` sees it:
either a fetched document (its field map) or an error from
`iter.Next()`. Exhaustion (`iterator.Done`) is the end of the list. -/
inductive FetchItem where
  | fetched : FieldList → FetchItem
  | fetchErr : List Char → FetchItem

/-- Observable events of a list/query operation: a rendered JSON line,
or a call to `iter.Stop()`. -/
inductive Event where
  | render : List Char → Event
  | stopCall : Event

/-- Whether an event is a `Stop` call. -/
def isStop : Event → Bool
  | .stopCall => true
  | .render _ => false

/-- The rendered lines among a list of events. -/
def renders (evs : List Event) : List (List Char) :=
  evs.filterMap fun e => match e with
    | .render s => some s
    | .stopCall => none

/-- Number of `Stop` calls among a list of events. -/
def stops (evs : List Event) : Nat := (evs.filter isStop).length

/-- The loop body of `iterate` (firestore-cli.go), counter `c` starting
at 1: fetch the next item (`iterator.Done` ends the loop with success;
a fetch error is wrapped and returned), marshal the document (a marshal
error is returned as-is, already wrapped by `jsonString`), print the
line, then — when `unlimited` is unset and the counter has reached
`limit` — break; otherwise increment and continue. -/
def iterateGo (pretty : Bool) (limit : Int) (unlimited : Bool) :
    List FetchItem → Int → List Event × Except (List Char) Unit
  | [], _ => ([], .ok ())
  | .fetchErr m :: _, _ =>
    ([], .error (wrapMsg "unable to iterate documents".toList m))
  | .fetched d :: rest, c =>
    match jsonString pretty d with
    | .error e => ([], .error e)
    | .ok s =>
      if !unlimited && c ≥ limit then ([.render s], .ok ())
      else
        let r := iterateGo pretty limit unlimited rest (c + 1)
        (.render s :: r.1, r.2)

/-- `iterate` with its counter initialized to 1. -/
def iterate (pretty : Bool) (limit : Int) (unlimited : Bool)
    (stream : List FetchItem) : List Event × Except (List Char) Unit :=
  iterateGo pretty limit unlimited stream 1

/-- The `documents` command body: open the collection stream, defer
`iter.Stop()` (which therefore runs exactly once, on every exit path of
the function), and run `iterate`. -/
def documentsRun (pretty : Bool) (limit : Int) (unlimited : Bool)
    (stream : List FetchItem) : List Event × Except (List Char) Unit :=
  let r := iterate pretty limit unlimited stream
  (r.1 ++ [.stopCall], r.2)

/-- The `where` command body: build the predicate from the three
positional arguments, open the filtered stream the store yields for it,
defer `iter.Stop()`, and run the same `iterate`. The store is abstracted
as a function from the predicate to the stream it produces. -/
def whereRun (pretty : Bool) (limit : Int) (unlimited : Bool)
    (field op arg : List Char) (streamOf : Predicate → List FetchItem) :
    List Event × Except (List Char) Unit :=
  let r := iterate pretty limit unlimited (streamOf (mkPredicate field op arg))
  (r.1 ++ [.stopCall], r.2)

/-! ## Configuration, validation, and the top level -/

/-- The merged settings (viper: defaults, then config file, then
flags). -/
structure Settings where
  project : List Char
  collection : List Char
  prettyprint : Bool
  verbose : Bool

/-- `validateRequiredParams`: scan `project`, then `collection`; the
first empty one yields the error `<key> undefined`. -/
def validateRequiredParams (s : Settings) : Except (List Char) Unit :=
  if s.project.isEmpty then .error ("project".toList ++ " undefined".toList)
  else if s.collection.isEmpty then .error ("collection".toList ++ " undefined".toList)
  else .ok ()

/-- `initFirestoreClient`: wrap the SDK's `firestore.NewClient` result
(`errors.Wrap` of a nil error is nil, so success passes through). The
SDK call is abstracted as its result. -/
def initFirestoreClient (newClientRes : Except (List Char) Unit) :
    Except (List Char) Unit :=
  match newClientRes with
  | .error e => .error (wrapMsg "unable to create firestore client".toList e)
  | .ok () => .ok ()

/-- `preRunE`: validate required params (wrapping a failure), then read
the verbose flag (cannot fail for a registered flag), then construct
the client (wrapping a failure — on top of the wrap already inside
`initFirestoreClient`). The second component records whether client
construction was attempted. -/
def preRunE (s : Settings) (newClientRes : Except (List Char) Unit) :
    Except (List Char) Unit × Bool :=
  match validateRequiredParams s with
  | .error e => (.error (wrapMsg "unable to validate required params".toList e), false)
  | .ok () =>
    match initFirestoreClient newClientRes with
    | .error e => (.error (wrapMsg "unable to create firestore client".toList e), true)
    | .ok () => (.ok (), true)

/-- Cobra's `Execute` for one command: run `PreRunE`; only when it
succeeds, run `RunE`. The Bool records whether client construction was
attempted. -/
def runCommand (s : Settings) (newClientRes : Except (List Char) Unit)
    (runE : Except (List Char) Unit) : Except (List Char) Unit × Bool :=
  match preRunE s newClientRes with
  | (.error e, b) => (.error e, b)
  | (.ok (), b) => (runE, b)

/-- `main`: print nothing and exit 0 on success; print the error and
exit 1 on failure. -/
def mainExit (res : Except (List Char) Unit) : Nat :=
  match res with
  | .ok () => 0
  | .error _ => 1

/-- Outcome of viper's `ReadInConfig`, abstracted: a config file was
found and read, no file was found in any search location, or a found
file failed to read/parse. -/
inductive ConfigRead where
  | found : ConfigRead
  | notFound : ConfigRead
  | readError : ConfigRead
deriving DecidableEq

/-- What `initConfig` does before any command logic runs. -/
inductive InitOutcome where
  | proceed : Bool → InitOutcome -- continue; the Bool: notice printed
  | exit1 : InitOutcome          -- os.Exit(1) inside initConfig
  | panicked : InitOutcome       -- panic inside initConfig
deriving DecidableEq

/-- `initConfig` (firestore-cli.go): a homedir failure prints the error
and calls `os.Exit(1)` directly; a missing config file prints the
`configNotFound` notice and continues; any other read error panics;
otherwise continue silently. -/
def initConfig (homedirRes : Except (List Char) (List Char))
    (read : ConfigRead) : InitOutcome :=
  match homedirRes with
  | .error _ => .exit1
  | .ok _ =>
    match read with
    | .notFound => .proceed true
    | .readError => .panicked
    | .found => .proceed false

/-- Observable outcome of a whole process run. -/
inductive AppOutcome where
  | exited : Nat → Bool → Option (List Char) → AppOutcome
    -- exit code, notice printed, error message printed by main
  | panicked : AppOutcome
deriving DecidableEq

/-- A whole invocation: `initConfig` (via cobra's OnInitialize), then
the selected command through `Execute`, then `main`'s error handling.
`s` is the merged settings after initConfig ran (when it proceeds). -/
def appRun (homedirRes : Except (List Char) (List Char)) (read : ConfigRead)
    (s : Settings) (newClientRes : Except (List Char) Unit)
    (runE : Except (List Char) Unit) : AppOutcome :=
  match initConfig homedirRes read with
  | .exit1 => .exited 1 false none
  | .panicked => .panicked
  | .proceed notice =>
    match runCommand s newClientRes runE with
    | (.error e, _) => .exited 1 notice (some e)
    | (.ok (), _) => .exited 0 notice none

/-! ## Derived notions used by the statements -/

/-- `p` erases to `c`: stripping insertable whitespace from `p`
(starting outside any string) yields `c`, and the scan ends outside any
string. -/
def ErasesTo (p c : List Char) : Prop :=
  ews p false false = c ∧ wsSt p false false = (false, false)

/-- A character the scanner passes through unchanged in either mode:
not a space, newline, quote or backslash. -/
def PlainChar (c : Char) : Prop :=
  c ≠ ' ' ∧ c ≠ '\n' ∧ c ≠ '"' ∧ c ≠ '\\'

instance (c : Char) : Decidable (PlainChar c) :=
  inferInstanceAs (Decidable (c ≠ ' ' ∧ c ≠ '\n' ∧ c ≠ '"' ∧ c ≠ '\\'))

/-- The in-string pass-through property of a chunk of emitted string
literal: every character is kept and the scan returns to the plain
in-string state. -/
def InStrPass (xs : List Char) : Prop :=
  ews xs true false = xs ∧ wsSt xs true false = (true, false)

/-- The serialized form of a document field map under either
pretty-print setting (meaningful when the map is supported by the
encoder). -/
def jsonOut (pretty : Bool) (d : FieldList) : List Char :=
  if pretty then pser (.vobj d) 0 else cser (.vobj d)

/-! ## Lemmas: the whitespace scanner -/

theorem ews_append (xs ys : List Char) (i e : Bool) :
    ews (xs ++ ys) i e =
      ews xs i e ++ ews ys (wsSt xs i e).1 (wsSt xs i e).2 := by
  induction xs generalizing i e with
  | nil => simp [ews, wsSt]
  | cons c cs ih => simp [ews, wsSt, ih, List.append_assoc]

theorem wsSt_append (xs ys : List Char) (i e : Bool) :
    wsSt (xs ++ ys) i e = wsSt ys (wsSt xs i e).1 (wsSt xs i e).2 := by
  induction xs generalizing i e with
  | nil => simp [wsSt]
  | cons c cs ih => simp [wsSt, ih]

theorem erasesTo_append {p1 c1 p2 c2 : List Char}
    (h1 : ErasesTo p1 c1) (h2 : ErasesTo p2 c2) :
    ErasesTo (p1 ++ p2) (c1 ++ c2) := by
  obtain ⟨e1, s1⟩ := h1
  obtain ⟨e2, s2⟩ := h2
  exact ⟨by rw [ews_append, s1, e1, e2], by rw [wsSt_append, s1, s2]⟩

theorem erasesTo_nil : ErasesTo [] [] := ⟨rfl, rfl⟩

theorem erasesTo_newline : ErasesTo ['\n'] [] := by
  constructor <;> simp [ews, wsSt, wsStep, wsKeep]

theorem erasesTo_space : ErasesTo [' '] [] := by
  constructor <;> simp [ews, wsSt, wsStep, wsKeep]

theorem erasesTo_replicate_space (n : Nat) :
    ErasesTo (List.replicate n ' ') [] := by
  induction n with
  | zero => exact erasesTo_nil
  | succ m ih =>
    have := erasesTo_append erasesTo_space ih
    simpa [List.replicate_succ] using this

theorem erasesTo_indent (d : Nat) : ErasesTo (indent d) [] :=
  erasesTo_replicate_space (2 * d)

theorem erasesTo_plain_cons {c : Char} {xs ys : List Char}
    (hc : PlainChar c) (h : ErasesTo xs ys) :
    ErasesTo (c :: xs) (c :: ys) := by
  obtain ⟨h1, h2, h3, _⟩ := hc
  obtain ⟨e1, s1⟩ := h
  refine ⟨?_, ?_⟩
  · simpa [ews, wsKeep, wsStep, h1, h2, h3] using e1
  · simpa [wsSt, wsStep, h3] using s1

theorem erasesTo_self_of_plain {xs : List Char}
    (h : ∀ c ∈ xs, PlainChar c) : ErasesTo xs xs := by
  induction xs with
  | nil => exact erasesTo_nil
  | cons c cs ih =>
    exact erasesTo_plain_cons (h c (List.mem_cons_self c cs))
      (ih fun x hx => h x (List.mem_cons_of_mem c hx))

/-! ## Lemmas: plain characters in atoms -/

theorem hexDig_plain (n : Nat) : PlainChar (hexDig n) := by
  unfold PlainChar hexDig
  split <;> refine ⟨by decide, by decide, by decide, by decide⟩

theorem natCharsAux_plain (fuel : Nat) :
    ∀ (n : Nat) (acc : List Char), (∀ c ∈ acc, PlainChar c) →
      ∀ c ∈ natCharsAux fuel n acc, PlainChar c := by
  induction fuel with
  | zero => intro n acc hacc c hc; exact hacc c hc
  | succ m ih =>
    intro n acc hacc c hc
    rw [natCharsAux] at hc
    split at hc
    · rcases List.mem_cons.mp hc with h | h
      · subst h; exact hexDig_plain n
      · exact hacc c h
    · refine ih (n / 10) (hexDig (n % 10) :: acc) ?_ c hc
      intro x hx
      rcases List.mem_cons.mp hx with h | h
      · subst h; exact hexDig_plain (n % 10)
      · exact hacc x h

theorem natChars_plain (n : Nat) : ∀ c ∈ natChars n, PlainChar c :=
  natCharsAux_plain (n + 1) n [] (by intro c hc; cases hc)

theorem intChars_plain (i : Int) : ∀ c ∈ intChars i, PlainChar c := by
  intro c hc
  unfold intChars at hc
  split at hc
  · rcases List.mem_cons.mp hc with h | h
    · subst h; exact ⟨by decide, by decide, by decide, by decide⟩
    · exact natChars_plain _ c h
  · exact natChars_plain _ c hc

theorem erasesTo_intChars (i : Int) : ErasesTo (intChars i) (intChars i) :=
  erasesTo_self_of_plain (intChars_plain i)

/-! ## Lemmas: string literals pass through the scanner unchanged -/

theorem inStrPass_append {xs ys : List Char}
    (hx : InStrPass xs) (hy : InStrPass ys) : InStrPass (xs ++ ys) := by
  obtain ⟨e1, s1⟩ := hx
  obtain ⟨e2, s2⟩ := hy
  exact ⟨by rw [ews_append, s1, e1, e2], by rw [wsSt_append, s1, s2]⟩

theorem inStrPass_single (c : Char) (hq : c ≠ '"') (hb : c ≠ '\\') :
    InStrPass [c] := by
  refine ⟨?_, ?_⟩ <;> simp [ews, wsSt, wsKeep, wsStep, hq, hb]

theorem inStrPass_escapeChar (c : Char) : InStrPass (escapeChar c) := by
  obtain ⟨-, -, h0q, h0b⟩ := hexDig_plain (c.toNat / 16)
  obtain ⟨-, -, h1q, h1b⟩ := hexDig_plain (c.toNat % 16)
  unfold escapeChar
  repeat' split
  all_goals first
    | exact ⟨rfl, rfl⟩
    | (show InStrPass ((['\\', 'u', '0', '0'] ++ [hexDig (c.toNat / 16)]) ++
          [hexDig (c.toNat % 16)])
       exact inStrPass_append
         (inStrPass_append ⟨rfl, rfl⟩ (inStrPass_single _ h0q h0b))
         (inStrPass_single _ h1q h1b))
    | exact inStrPass_single c (by assumption) (by assumption)

theorem inStrPass_escBody (s : List Char) : InStrPass (escBody s) := by
  induction s with
  | nil => exact ⟨rfl, rfl⟩
  | cons c cs ih =>
    have := inStrPass_append (inStrPass_escapeChar c) ih
    simpa [escBody] using this

theorem erasesTo_quoteStr (s : List Char) :
    ErasesTo (quoteStr s) (quoteStr s) := by
  obtain ⟨eb, sb⟩ := inStrPass_escBody s
  have step1 : wsStep '"' false false = (true, false) := by decide
  have hq : ews (escBody s ++ ['"']) true false = escBody s ++ ['"'] := by
    rw [ews_append, eb, sb]; rfl
  have hs : wsSt (escBody s ++ ['"']) true false = (false, false) := by
    rw [wsSt_append, sb]; rfl
  refine ⟨?_, ?_⟩
  · show ews ('"' :: (escBody s ++ ['"'])) false false = _
    simp [ews, wsKeep, wsStep, hq, quoteStr]
  · show wsSt ('"' :: (escBody s ++ ['"'])) false false = _
    simp [wsSt, wsStep, hs]

theorem erasesTo_newline_cons {xs ys : List Char} (h : ErasesTo xs ys) :
    ErasesTo ('\n' :: xs) ys := by
  simpa using erasesTo_append erasesTo_newline h

theorem erasesTo_space_cons {xs ys : List Char} (h : ErasesTo xs ys) :
    ErasesTo (' ' :: xs) ys := by
  simpa using erasesTo_append erasesTo_space h

theorem erasesTo_indent_append (d : Nat) {xs ys : List Char}
    (h : ErasesTo xs ys) : ErasesTo (indent d ++ xs) ys := by
  simpa using erasesTo_append (erasesTo_indent d) h

/-! ## The indented serialization erases to the compact one -/

mutual
theorem pser_erases : ∀ (v : Value) (d : Nat), ErasesTo (pser v d) (cser v)
  | .vnull, d => by
    simpa [pser, cser] using
      erasesTo_self_of_plain (show ∀ c ∈ ['n', 'u', 'l', 'l'], PlainChar c by decide)
  | .vbool true, d => by
    simpa [pser, cser] using
      erasesTo_self_of_plain (show ∀ c ∈ ['t', 'r', 'u', 'e'], PlainChar c by decide)
  | .vbool false, d => by
    simpa [pser, cser] using
      erasesTo_self_of_plain (show ∀ c ∈ ['f', 'a', 'l', 's', 'e'], PlainChar c by decide)
  | .vint i, d => by simpa [pser, cser] using erasesTo_intChars i
  | .vstr s, d => by simpa [pser, cser] using erasesTo_quoteStr s
  | .vunsup, d => by simpa [pser, cser] using erasesTo_nil
  | .varr .nil, d => by
    simpa [pser, cser, cserL] using
      erasesTo_self_of_plain (show ∀ c ∈ ['[', ']'], PlainChar c by decide)
  | .varr (.cons v tl), d => by
    have tail : ErasesTo ('\n' :: (indent d ++ [']'])) [']'] :=
      erasesTo_newline_cons (erasesTo_indent_append d
        (erasesTo_self_of_plain (by decide)))
    have full :=
      erasesTo_plain_cons (show PlainChar '[' by decide)
        (erasesTo_newline_cons
          (erasesTo_append (pserL_erases (.cons v tl) (d + 1)) tail))
    simpa [pser, cser, List.append_assoc] using full
  | .vobj .nil, d => by
    simpa [pser, cser, cserF] using
      erasesTo_self_of_plain (show ∀ c ∈ ['{', '}'], PlainChar c by decide)
  | .vobj (.cons k v tl), d => by
    have tail : ErasesTo ('\n' :: (indent d ++ ['}'])) ['}'] :=
      erasesTo_newline_cons (erasesTo_indent_append d
        (erasesTo_self_of_plain (by decide)))
    have full :=
      erasesTo_plain_cons (show PlainChar '{' by decide)
        (erasesTo_newline_cons
          (erasesTo_append (pserF_erases (.cons k v tl) (d + 1)) tail))
    simpa [pser, cser, List.append_assoc] using full

theorem pserL_erases : ∀ (xs : ValueList) (d : Nat),
    ErasesTo (pserL xs d) (cserL xs)
  | .nil, d => by simpa [pserL, cserL] using erasesTo_nil
  | .cons v .nil, d => by
    simpa [pserL, cserL] using erasesTo_indent_append d (pser_erases v d)
  | .cons v (.cons v2 tl), d => by
    have full :=
      erasesTo_indent_append d
        (erasesTo_append (pser_erases v d)
          (erasesTo_plain_cons (show PlainChar ',' by decide)
            (erasesTo_newline_cons (pserL_erases (.cons v2 tl) d))))
    simpa [pserL, cserL, List.append_assoc] using full

theorem pserF_erases : ∀ (fs : FieldList) (d : Nat),
    ErasesTo (pserF fs d) (cserF fs)
  | .nil, d => by simpa [pserF, cserF] using erasesTo_nil
  | .cons k v .nil, d => by
    have full :=
      erasesTo_indent_append d
        (erasesTo_append (erasesTo_quoteStr k)
          (erasesTo_plain_cons (show PlainChar ':' by decide)
            (erasesTo_space_cons (pser_erases v d))))
    simpa [pserF, cserF, List.append_assoc] using full
  | .cons k v (.cons k2 v2 tl), d => by
    have head :=
      erasesTo_indent_append d
        (erasesTo_append (erasesTo_quoteStr k)
          (erasesTo_plain_cons (show PlainChar ':' by decide)
            (erasesTo_space_cons (pser_erases v d))))
    have full :=
      erasesTo_append head
        (erasesTo_plain_cons (show PlainChar ',' by decide)
          (erasesTo_newline_cons (pserF_erases (.cons k2 v2 tl) d)))
    simpa [pserF, cserF, List.append_assoc] using full
end

/-! ## Lemmas: the renderer and the iteration loop -/

theorem jsonString_eq_ok (pp : Bool) (d : FieldList)
    (h : fsupported d = true) : jsonString pp d = .ok (jsonOut pp d) := by
  cases pp <;>
    simp [jsonString, jsonMarshal, jsonMarshalIndent, jsonOut, vsupported, h]

theorem jsonString_eq_err (pp : Bool) (d : FieldList)
    (h : fsupported d = false) :
    jsonString pp d =
      .error (wrapMsg "unable to marshal document to json".toList unsupMsg) := by
  cases pp <;>
    simp [jsonString, jsonMarshal, jsonMarshalIndent, vsupported, h]

theorem iterateGo_step_ok (pp : Bool) (limit : Int) (unl : Bool)
    (d : FieldList) (rest : List FetchItem) (c : Int)
    (hd : fsupported d = true) (hcond : unl = true ∨ c < limit) :
    iterateGo pp limit unl (.fetched d :: rest) c =
      (Event.render (jsonOut pp d) :: (iterateGo pp limit unl rest (c + 1)).1,
        (iterateGo pp limit unl rest (c + 1)).2) := by
  have hb : (!unl && decide (c ≥ limit)) = false := by
    rcases hcond with h | h
    · simp [h]
    · simp [decide_eq_false_iff_not]
      intro hu
      omega
  simp [iterateGo, jsonString_eq_ok pp d hd, hb]

theorem iterateGo_step_break (pp : Bool) (limit : Int)
    (d : FieldList) (rest : List FetchItem) (c : Int)
    (hd : fsupported d = true) (hc : c ≥ limit) :
    iterateGo pp limit false (.fetched d :: rest) c =
      ([Event.render (jsonOut pp d)], .ok ()) := by
  simp [iterateGo, jsonString_eq_ok pp d hd, hc]

theorem iterateGo_step_marshal_err (pp : Bool) (limit : Int) (unl : Bool)
    (d : FieldList) (rest : List FetchItem) (c : Int)
    (hd : fsupported d = false) :
    iterateGo pp limit unl (.fetched d :: rest) c =
      ([], .error (wrapMsg "unable to marshal document to json".toList unsupMsg)) := by
  simp [iterateGo, jsonString_eq_err pp d hd]

theorem iterateGo_step_fetch_err (pp : Bool) (limit : Int) (unl : Bool)
    (m : List Char) (rest : List FetchItem) (c : Int) :
    iterateGo pp limit unl (.fetchErr m :: rest) c =
      ([], .error (wrapMsg "unable to iterate documents".toList m)) := by
  simp [iterateGo]

/-- Processing a block of supported documents that all fit under the
bound: each is rendered in order and the loop continues behind them
with the counter advanced. -/
theorem iterateGo_good_docs (pp : Bool) (limit : Int) (unl : Bool) :
    ∀ (pre : List FieldList) (tail : List FetchItem) (c : Int),
      (∀ d ∈ pre, fsupported d = true) →
      (unl = true ∨ c + pre.length ≤ limit) →
      iterateGo pp limit unl (pre.map .fetched ++ tail) c =
        ((pre.map fun d => Event.render (jsonOut pp d)) ++
            (iterateGo pp limit unl tail (c + pre.length)).1,
          (iterateGo pp limit unl tail (c + pre.length)).2) := by
  intro pre
  induction pre with
  | nil => intro tail c _ _; simp
  | cons d tl ih =>
    intro tail c hsup hreach
    have hd : fsupported d = true := hsup d (List.mem_cons_self d tl)
    have hcond : unl = true ∨ c < limit := by
      rcases hreach with h | h
      · exact Or.inl h
      · right
        simp only [List.length_cons] at h
        push_cast at h
        omega
    have hreach' : unl = true ∨ (c + 1) + tl.length ≤ limit := by
      rcases hreach with h | h
      · exact Or.inl h
      · right
        simp only [List.length_cons] at h
        push_cast at h ⊢
        omega
    have harith : c + 1 + (tl.length : Int) = c + ((d :: tl).length : Nat) := by
      simp only [List.length_cons]
      push_cast
      ring
    rw [List.map_cons, List.cons_append,
      iterateGo_step_ok pp limit unl d (tl.map FetchItem.fetched ++ tail) c hd hcond,
      ih tail (c + 1) (fun x hx => hsup x (List.mem_cons_of_mem d hx)) hreach',
      harith]
    simp

/-- Processing supported documents up to and including the one at
which the counter reaches the limit (unlimited unset): exactly the
first `limit - c + 1` documents are rendered and the loop reports
success without touching the rest of the stream. -/
theorem iterateGo_hits_limit (pp : Bool) (limit : Int) :
    ∀ (docs : List FieldList) (rest : List FetchItem) (c : Int),
      c ≤ limit →
      limit - c + 1 ≤ (docs.length : Int) →
      (∀ d ∈ docs, fsupported d = true) →
      iterateGo pp limit false (docs.map .fetched ++ rest) c =
        ((docs.take (limit - c + 1).toNat).map
            (fun d => Event.render (jsonOut pp d)), .ok ()) := by
  intro docs
  induction docs with
  | nil =>
    intro rest c h1 h2 _
    exfalso
    simp only [List.length_nil, Nat.cast_zero] at h2
    omega
  | cons d tl ih =>
    intro rest c h1 h2 hsup
    have hd : fsupported d = true := hsup d (List.mem_cons_self d tl)
    by_cases hc : c ≥ limit
    · rw [List.map_cons, List.cons_append,
        iterateGo_step_break pp limit d (tl.map FetchItem.fetched ++ rest) c hd hc]
      have hone : (limit - c + 1).toNat = 1 := by omega
      rw [hone]
      simp
    · push_neg at hc
      have hlen : limit - (c + 1) + 1 ≤ (tl.length : Int) := by
        simp only [List.length_cons] at h2
        push_cast at h2
        omega
      rw [List.map_cons, List.cons_append,
        iterateGo_step_ok pp limit false d (tl.map FetchItem.fetched ++ rest) c hd (Or.inr hc),
        ih rest (c + 1) (by omega) hlen
          (fun x hx => hsup x (List.mem_cons_of_mem d hx))]
      have hsucc : (limit - c + 1).toNat = (limit - (c + 1) + 1).toNat + 1 := by
        omega
      rw [hsucc, List.take_succ_cons]
      simp

theorem stops_render_cons (s : List Char) (l : List Event) :
    stops (.render s :: l) = stops l := by
  simp [stops, List.filter, isStop]

theorem stops_append (a b : List Event) :
    stops (a ++ b) = stops a + stops b := by
  simp [stops, List.filter_append]

/-- The loop itself never calls `Stop`: only the enclosing command's
`defer` does. -/
theorem iterateGo_no_stops (pp : Bool) (limit : Int) (unl : Bool) :
    ∀ (stream : List FetchItem) (c : Int),
      stops (iterateGo pp limit unl stream c).1 = 0 := by
  intro stream
  induction stream with
  | nil => intro c; rfl
  | cons item rest ih =>
    intro c
    cases item with
    | fetchErr m => simp [iterateGo_step_fetch_err, stops]
    | fetched d =>
      by_cases hd : fsupported d = true
      · by_cases hb : (!unl && decide (c ≥ limit)) = true
        · simp [iterateGo, jsonString_eq_ok pp d hd, hb, stops, List.filter, isStop]
        · have hb' : (!unl && decide (c ≥ limit)) = false := by
            simpa using hb
          simp [iterateGo, jsonString_eq_ok pp d hd, hb', stops_render_cons, ih]
      · have hd' : fsupported d = false := by simpa using hd
        simp [iterateGo_step_marshal_err pp limit unl d rest c hd', stops]

theorem renders_append (a b : List Event) :
    renders (a ++ b) = renders a ++ renders b := by
  simp [renders, List.filterMap_append]

theorem renders_map_render (l : List (List Char)) :
    renders (l.map Event.render) = l := by
  induction l with
  | nil => rfl
  | cons s tl ih => simp [renders] at ih ⊢; exact ih

/-! ## Lemmas: decimal parsing -/

theorem decValRev_append (xs ys : List Char) :
    decValRev (xs ++ ys) = decValRev xs + 10 ^ xs.length * decValRev ys := by
  induction xs with
  | nil => simp [decValRev]
  | cons d tl ih =>
    have h1 : decValRev ((d :: tl) ++ ys) = digVal d + 10 * decValRev (tl ++ ys) := by
      rw [List.cons_append]
      rfl
    have h2 : decValRev (d :: tl) = digVal d + 10 * decValRev tl := rfl
    rw [h1, ih, h2, List.length_cons, pow_succ]
    ring

theorem decVal_cons (d : Char) (tl : List Char) :
    decVal (d :: tl) = digVal d * 10 ^ tl.length + decVal tl := by
  simp only [decVal, List.reverse_cons, decValRev_append, decValRev,
    List.length_reverse]
  ring

theorem foldl_digits_eq (ds : List Char) :
    ∀ a : Nat, ds.foldl (fun acc c => acc * 10 + digVal c) a =
      a * 10 ^ ds.length + decVal ds := by
  induction ds with
  | nil => intro a; simp [decVal, decValRev]
  | cons d tl ih =>
    intro a
    simp only [List.foldl_cons, ih, decVal_cons, List.length_cons, pow_succ]
    ring

/-- The signed-range branch of the two parsers agree: Go's unsigned
magnitude checks match the spec's signed interval check. -/
theorem parse_range_branch (P : Prop) [Decidable P] (v : Nat) :
    (if P then (if v ≤ 2 ^ 31 then some (-(v : Int)) else none)
     else (if v < 2 ^ 31 then some ((v : Int)) else none)) =
    (if -(2 ^ 31) ≤ (if P then -(v : Int) else (v : Int)) ∧
        (if P then -(v : Int) else (v : Int)) ≤ 2 ^ 31 - 1 then
      some (if P then -(v : Int) else (v : Int))
     else none) := by
  have hpi : ((2 : Int) ^ 31) = 2147483648 := by norm_num
  have hpn : ((2 : Nat) ^ 31) = 2147483648 := by norm_num
  by_cases hp : P <;>
    simp only [hp, if_true, if_false, hpi, hpn] <;>
    split_ifs <;> first | rfl | (exfalso; omega)

theorem goParseInt32_eq_specInt32 (s : List Char) :
    goParseInt32 s = specInt32 s := by
  cases s with
  | nil => rfl
  | cons c0 rest =>
    unfold goParseInt32 specInt32
    dsimp only
    generalize (if c0 = '+' || c0 = '-' then rest else c0 :: rest) = ds
    cases he : ds.isEmpty with
    | true => simp only [he, if_true]
    | false =>
      simp only [he, Bool.false_eq_true, if_false]
      cases hall : ds.all Char.isDigit with
      | false => simp only [hall, Bool.false_eq_true, if_false]
      | true =>
        simp only [hall, if_true]
        have hf := foldl_digits_eq ds 0
        rw [Nat.zero_mul, Nat.zero_add] at hf
        rw [hf]
        simp only [decide_eq_true_eq]
        exact parse_range_branch (c0 = '-') (decVal ds)

theorem renders_map_render_comp {α : Type} (f : α → List Char) (l : List α) :
    renders (l.map fun d => Event.render (f d)) = l.map f := by
  induction l with
  | nil => rfl
  | cons a tl ih => simp [renders] at ih ⊢; exact ih

/-! ## The claims -/

/-- Claim C1: for every collection with at least `N` documents and every
positive limit `N`, the list-all operation with limit `N` and unlimited
unset renders exactly the first `N` documents (in stream order), and
succeeds: the counter starts at 1 and iteration stops once it reaches
the limit. (Documents actually touched are assumed to marshal, as the
claim presumes they are rendered.) -/
theorem documents_limit_renders_exactly (pp : Bool) (N : Nat)
    (docs : List FieldList)
    (hN : 1 ≤ N) (hlen : N ≤ docs.length)
    (hsup : ∀ d ∈ docs, fsupported d = true) :
    renders (documentsRun pp (N : Int) false (docs.map .fetched)).1 =
      (docs.take N).map (jsonOut pp) ∧
    (documentsRun pp (N : Int) false (docs.map .fetched)).2 = .ok () ∧
    ((docs.take N).map (jsonOut pp)).length = N := by
  have hcore := iterateGo_hits_limit pp (N : Int) docs [] 1
    (by exact_mod_cast hN) (by omega) hsup
  rw [List.append_nil] at hcore
  have htn : ((N : Int) - 1 + 1).toNat = N := by omega
  rw [htn] at hcore
  refine ⟨?_, ?_, ?_⟩
  · simp only [documentsRun, iterate, hcore]
    rw [renders_append, renders_map_render_comp]
    simp [renders]
  · simp only [documentsRun, iterate, hcore]
  · rw [List.length_map, List.length_take, Nat.min_eq_left hlen]

theorem documents_limit_renders_exactly_witness :
    renders (documentsRun false ((1 : Nat) : Int) false
        ([FieldList.cons ['a'] Value.vnull FieldList.nil,
          FieldList.cons ['b'] (Value.vint 7) FieldList.nil].map FetchItem.fetched)).1 =
      ([FieldList.cons ['a'] Value.vnull FieldList.nil,
        FieldList.cons ['b'] (Value.vint 7) FieldList.nil].take 1).map (jsonOut false) ∧
    (documentsRun false ((1 : Nat) : Int) false
        ([FieldList.cons ['a'] Value.vnull FieldList.nil,
          FieldList.cons ['b'] (Value.vint 7) FieldList.nil].map FetchItem.fetched)).2 = .ok () ∧
    (([FieldList.cons ['a'] Value.vnull FieldList.nil,
        FieldList.cons ['b'] (Value.vint 7) FieldList.nil].take 1).map (jsonOut false)).length = 1 :=
  documents_limit_renders_exactly false 1
    [FieldList.cons ['a'] Value.vnull FieldList.nil,
      FieldList.cons ['b'] (Value.vint 7) FieldList.nil]
    (by decide) (by decide) (by decide)

/-- Claim C2: with the unlimited flag set, the list-all operation
renders every document the store yields, in order, and succeeds (so an
empty collection renders nothing and the process exits 0). -/
theorem documents_unlimited_renders_all (pp : Bool) (limit : Int)
    (docs : List FieldList) (hsup : ∀ d ∈ docs, fsupported d = true) :
    renders (documentsRun pp limit true (docs.map .fetched)).1 =
      docs.map (jsonOut pp) ∧
    (documentsRun pp limit true (docs.map .fetched)).2 = .ok () ∧
    mainExit (documentsRun pp limit true (docs.map .fetched)).2 = 0 := by
  have hcore := iterateGo_good_docs pp limit true docs [] 1 hsup (Or.inl rfl)
  rw [List.append_nil] at hcore
  have hempty : iterateGo pp limit true [] (1 + (docs.length : Int)) =
      ([], .ok ()) := rfl
  rw [hempty] at hcore
  simp only [List.append_nil] at hcore
  refine ⟨?_, ?_, ?_⟩
  · simp only [documentsRun, iterate, hcore]
    rw [renders_append, renders_map_render_comp]
    simp [renders]
  · simp only [documentsRun, iterate, hcore]
  · simp only [documentsRun, iterate, hcore, mainExit]

theorem documents_unlimited_renders_all_witness :
    renders (documentsRun false 100 true
        (([] : List FieldList).map FetchItem.fetched)).1 = [] ∧
    (documentsRun false 100 true (([] : List FieldList).map FetchItem.fetched)).2 = .ok () ∧
    mainExit (documentsRun false 100 true (([] : List FieldList).map FetchItem.fetched)).2 = 0 :=
  documents_unlimited_renders_all false 100 [] (by decide)

/-- Claim C3: the filter-by-field operation's predicate value is
integer-typed exactly when the literal argument parses as a base-10
integer in 32-bit range (per `strconv.ParseInt(arg, 10, 32)`), and is
the unmodified literal string otherwise. `specInt32` is the spec-side
reading (optional sign, nonempty digit run, positional value in
`[-2^31, 2^31-1]`). -/
theorem where_value_coercion (field op arg : List Char) :
    (mkPredicate field op arg).value =
      (match specInt32 arg with
       | some n => WhereVal.intV n
       | none => WhereVal.strV arg) := by
  show whereValue arg = _
  simp only [whereValue, goParseInt32_eq_specInt32]

/-- Claim C4: if after merging the project or collection setting is
empty, pre-run validation fails with an error naming the missing key,
client construction is never attempted, the command body never runs
(the result is the same for every `runE`), and the process exits
non-zero — regardless of the other flags carried by `s`. -/
theorem missing_required_param_fails (s : Settings)
    (ncr runE : Except (List Char) Unit)
    (h : s.project = [] ∨ s.collection = []) :
    (runCommand s ncr runE).2 = false ∧
    mainExit (runCommand s ncr runE).1 = 1 ∧
    (s.project = [] → (runCommand s ncr runE).1 =
      .error (wrapMsg "unable to validate required params".toList
        ("project".toList ++ " undefined".toList))) ∧
    (s.project ≠ [] → (runCommand s ncr runE).1 =
      .error (wrapMsg "unable to validate required params".toList
        ("collection".toList ++ " undefined".toList))) := by
  by_cases hp : s.project = []
  · have hval : validateRequiredParams s =
        .error ("project".toList ++ " undefined".toList) := by
      simp [validateRequiredParams, List.isEmpty_iff, hp]
    refine ⟨?_, ?_, ?_, ?_⟩ <;>
      simp [runCommand, preRunE, hval, mainExit, hp]
  · have hc : s.collection = [] := h.resolve_left hp
    have hval : validateRequiredParams s =
        .error ("collection".toList ++ " undefined".toList) := by
      simp [validateRequiredParams, List.isEmpty_iff, hp, hc]
    refine ⟨?_, ?_, ?_, ?_⟩ <;>
      simp [runCommand, preRunE, hval, mainExit, hp]

theorem missing_required_param_fails_witness :
    (runCommand ⟨[], ['c'], false, false⟩ (.ok ()) (.ok ())).2 = false ∧
    mainExit (runCommand ⟨[], ['c'], false, false⟩ (.ok ()) (.ok ())).1 = 1 ∧
    (([] : List Char) = [] →
      (runCommand ⟨[], ['c'], false, false⟩ (.ok ()) (.ok ())).1 =
        .error (wrapMsg "unable to validate required params".toList
          ("project".toList ++ " undefined".toList))) ∧
    (([] : List Char) ≠ [] →
      (runCommand ⟨[], ['c'], false, false⟩ (.ok ()) (.ok ())).1 =
        .error (wrapMsg "unable to validate required params".toList
          ("collection".toList ++ " undefined".toList))) :=
  missing_required_param_fails ⟨[], ['c'], false, false⟩ (.ok ()) (.ok ())
    (Or.inl rfl)

/-- Claim C5: toggling the pretty-print flag changes only whitespace in
the emitted JSON — stripping the insertable whitespace (outside string
literals) from the pretty output yields exactly the compact output, for
every field map that serializes under both settings. -/
theorem prettyprint_toggles_only_whitespace (docData : FieldList)
    (p c : List Char)
    (hp : jsonString true docData = .ok p)
    (hc : jsonString false docData = .ok c) :
    stripJsonWs p = c := by
  by_cases h : fsupported docData = true
  · rw [jsonString_eq_ok true docData h] at hp
    rw [jsonString_eq_ok false docData h] at hc
    have hp' : p = jsonOut true docData := by
      cases hp
      rfl
    have hc' : c = jsonOut false docData := by
      cases hc
      rfl
    rw [hp', hc']
    show ews (pser (.vobj docData) 0) false false = cser (.vobj docData)
    exact (pser_erases (.vobj docData) 0).1
  · have h' : fsupported docData = false := by simpa using h
    rw [jsonString_eq_err true docData h'] at hp
    cases hp

theorem prettyprint_toggles_only_whitespace_witness :
    ∃ p c,
      jsonString true (FieldList.cons ('a' :: ' ' :: 'b' :: []) (Value.vint (-12))
        (FieldList.cons ['k'] (Value.varr (ValueList.cons (Value.vstr ('x' :: '"' :: []))
          (ValueList.cons Value.vnull ValueList.nil))) FieldList.nil)) = .ok p ∧
      jsonString false (FieldList.cons ('a' :: ' ' :: 'b' :: []) (Value.vint (-12))
        (FieldList.cons ['k'] (Value.varr (ValueList.cons (Value.vstr ('x' :: '"' :: []))
          (ValueList.cons Value.vnull ValueList.nil))) FieldList.nil)) = .ok c ∧
      stripJsonWs p = c :=
  ⟨_, _, rfl, rfl,
    prettyprint_toggles_only_whitespace
      (FieldList.cons ('a' :: ' ' :: 'b' :: []) (Value.vint (-12))
        (FieldList.cons ['k'] (Value.varr (ValueList.cons (Value.vstr ('x' :: '"' :: []))
          (ValueList.cons Value.vnull ValueList.nil))) FieldList.nil)) _ _ rfl rfl⟩

/-- Claim C6: when the k-th fetched document's field map fails to
marshal (here: `pre` good documents followed by an unsupported one),
the iteration returns the marshal error — wrapped, with no retry and
nothing further consumed — while the k-1 already-rendered documents
remain in the output. -/
theorem marshal_failure_aborts_stream (pp : Bool) (limit : Int) (unl : Bool)
    (pre : List FieldList) (dbad : FieldList) (rest : List FetchItem)
    (hsup : ∀ d ∈ pre, fsupported d = true)
    (hbad : fsupported dbad = false)
    (hreach : unl = true ∨ (pre.length : Int) + 1 ≤ limit) :
    (iterate pp limit unl (pre.map .fetched ++ .fetched dbad :: rest)).1 =
      pre.map (fun d => Event.render (jsonOut pp d)) ∧
    (iterate pp limit unl (pre.map .fetched ++ .fetched dbad :: rest)).2 =
      .error (wrapMsg "unable to marshal document to json".toList unsupMsg) := by
  have hr : unl = true ∨ 1 + (pre.length : Int) ≤ limit := by
    rcases hreach with h | h
    · exact Or.inl h
    · right; omega
  have hcore := iterateGo_good_docs pp limit unl pre
    (.fetched dbad :: rest) 1 hsup hr
  rw [iterateGo_step_marshal_err pp limit unl dbad rest
    (1 + (pre.length : Int)) hbad] at hcore
  constructor
  · simp only [iterate, hcore]
    simp
  · simp only [iterate, hcore]

theorem marshal_failure_aborts_stream_witness :
    (iterate false 100 false
        ([FieldList.cons ['a'] Value.vnull FieldList.nil].map FetchItem.fetched ++
          .fetched (FieldList.cons ['z'] Value.vunsup FieldList.nil) :: [])).1 =
      [FieldList.cons ['a'] Value.vnull FieldList.nil].map
        (fun d => Event.render (jsonOut false d)) ∧
    (iterate false 100 false
        ([FieldList.cons ['a'] Value.vnull FieldList.nil].map FetchItem.fetched ++
          .fetched (FieldList.cons ['z'] Value.vunsup FieldList.nil) :: [])).2 =
      .error (wrapMsg "unable to marshal document to json".toList unsupMsg) :=
  marshal_failure_aborts_stream false 100 false
    [FieldList.cons ['a'] Value.vnull FieldList.nil]
    (FieldList.cons ['z'] Value.vunsup FieldList.nil) []
    (by decide) (by decide) (by right; decide)

/-- Claim C7 counterexample: the claim asserts that no code path
panics or exits before an error reaches the top level, but `initConfig`
panics when the config file exists and fails to read: the process run
with a read error ends in a panic, never reaching `main`'s error
handling. -/
theorem error_policy_counterexample :
    ¬ (∀ (hm : Except (List Char) (List Char)) (read : ConfigRead)
        (s : Settings) (ncr runE : Except (List Char) Unit),
        appRun hm read s ncr runE ≠ AppOutcome.panicked) := by
  intro hclaim
  exact hclaim (.ok []) .readError ⟨['p'], ['c'], false, false⟩
    (.ok ()) (.ok ()) rfl

/-- Claim C7 (amended): errors of the command phase — validation,
client construction, fetch/iteration, serialization — are wrapped with
a contextual message and returned unmodified to the top level, which
prints them and exits 1. Configuration loading is the exception: a
home-directory failure prints and exits 1 directly inside `initConfig`,
an unreadable config file panics, and a missing config file is
recovered locally (a notice is printed and execution continues). -/
theorem error_policy_amended :
    (∀ (home : List Char) (read : ConfigRead) (s : Settings)
        (ncr runE : Except (List Char) Unit) (e : List Char),
        read ≠ ConfigRead.readError →
        (runCommand s ncr runE).1 = .error e →
        appRun (.ok home) read s ncr runE =
          .exited 1 (match read with | .notFound => true | _ => false) (some e)) ∧
    (∀ (home : List Char) (s : Settings) (ncr runE : Except (List Char) Unit),
        appRun (.ok home) .readError s ncr runE = .panicked) ∧
    (∀ (msg : List Char) (read : ConfigRead) (s : Settings)
        (ncr runE : Except (List Char) Unit),
        appRun (.error msg) read s ncr runE = .exited 1 false none) ∧
    (∀ (s : Settings) (ncr : Except (List Char) Unit) (e : List Char),
        validateRequiredParams s = .error e →
        (preRunE s ncr).1 =
          .error (wrapMsg "unable to validate required params".toList e)) ∧
    (∀ (s : Settings) (e : List Char),
        validateRequiredParams s = .ok () →
        (preRunE s (.error e)).1 =
          .error (wrapMsg "unable to create firestore client".toList
            (wrapMsg "unable to create firestore client".toList e))) ∧
    (∀ (pp : Bool) (limit : Int) (unl : Bool) (m : List Char)
        (rest : List FetchItem),
        (iterate pp limit unl (.fetchErr m :: rest)).2 =
          .error (wrapMsg "unable to iterate documents".toList m)) := by
  refine ⟨?_, ?_, ?_, ?_, ?_, ?_⟩
  · intro home read s ncr runE e hread hrun
    cases read with
    | readError => exact absurd rfl hread
    | found =>
      rcases hrc : runCommand s ncr runE with ⟨fst, snd⟩
      rw [hrc] at hrun
      simp only at hrun
      subst hrun
      simp [appRun, initConfig, hrc]
    | notFound =>
      rcases hrc : runCommand s ncr runE with ⟨fst, snd⟩
      rw [hrc] at hrun
      simp only at hrun
      subst hrun
      simp [appRun, initConfig, hrc]
  · intro home s ncr runE
    rfl
  · intro msg read s ncr runE
    rfl
  · intro s ncr e h
    simp [preRunE, h]
  · intro s e h
    simp [preRunE, h, initFirestoreClient]
  · intro pp limit unl m rest
    simp only [iterate, iterateGo_step_fetch_err]

theorem error_policy_amended_witness :
    appRun (.ok []) .found ⟨[], [], false, false⟩ (.ok ()) (.ok ()) =
      .exited 1 false (some (wrapMsg "unable to validate required params".toList
        ("project".toList ++ " undefined".toList))) :=
  error_policy_amended.1 [] .found ⟨[], [], false, false⟩ (.ok ()) (.ok ())
    (wrapMsg "unable to validate required params".toList
      ("project".toList ++ " undefined".toList))
    (by decide) rfl

/-- Claim C8: every run of the list-all or filter-by-field operation
calls `Stop` on the stream it opened exactly once, on every exit path —
exhaustion, mid-stream error, or early break at the bound (the `defer`
in `documents` / `where`; `iterate` itself never calls `Stop`). -/
theorem stream_closed_exactly_once (pp : Bool) (limit : Int) (unl : Bool)
    (stream : List FetchItem) (field op arg : List Char)
    (streamOf : Predicate → List FetchItem) :
    stops (documentsRun pp limit unl stream).1 = 1 ∧
    stops (whereRun pp limit unl field op arg streamOf).1 = 1 := by
  constructor <;>
    (simp only [documentsRun, whereRun, iterate]
     rw [stops_append, iterateGo_no_stops]
     rfl)

/-- Claim C9 counterexample: with no config file found and no flags
supplying the required fields, the run does not fail with a distinct
ConfigError during configuration resolution — `initConfig` merely
prints a notice and continues, and the eventual failure is exactly the
same ValidationError (`project undefined`, wrapped by the pre-run
check) produced when a config file exists but leaves the fields
empty. -/
theorem config_error_counterexample :
    appRun (.ok []) .notFound ⟨[], [], false, false⟩ (.ok ()) (.ok ()) =
      .exited 1 true (some (wrapMsg "unable to validate required params".toList
        ("project".toList ++ " undefined".toList))) ∧
    appRun (.ok []) .found ⟨[], [], false, false⟩ (.ok ()) (.ok ()) =
      .exited 1 false (some (wrapMsg "unable to validate required params".toList
        ("project".toList ++ " undefined".toList))) :=
  ⟨rfl, rfl⟩

/-- Claim C9 (amended): when no config file is found, `initConfig`
prints the config-not-found notice but execution continues; if the
required fields are still empty after the merge, the run fails with the
ValidationError — never a distinct ConfigError: apart from the printed
notice, the outcome is identical to the config-file-found case. -/
theorem config_missing_amended (home : List Char) (s : Settings)
    (ncr runE : Except (List Char) Unit) :
    (s.project = [] →
      appRun (.ok home) .notFound s ncr runE =
        .exited 1 true (some (wrapMsg "unable to validate required params".toList
          ("project".toList ++ " undefined".toList)))) ∧
    (∀ (code : Nat) (notice : Bool) (errPrinted : Option (List Char)),
      appRun (.ok home) .found s ncr runE = .exited code notice errPrinted →
      appRun (.ok home) .notFound s ncr runE = .exited code true errPrinted) := by
  constructor
  · intro hp
    have hval : validateRequiredParams s =
        .error ("project".toList ++ " undefined".toList) := by
      simp [validateRequiredParams, List.isEmpty_iff, hp]
    simp [appRun, initConfig, runCommand, preRunE, hval]
  · intro code notice errPrinted h
    rcases hrc : runCommand s ncr runE with ⟨fst, snd⟩
    cases fst with
    | error e =>
      simp only [appRun, initConfig, hrc] at h ⊢
      injection h with h1 h2 h3
      rw [← h1, ← h3]
    | ok u =>
      cases u
      simp only [appRun, initConfig, hrc] at h ⊢
      injection h with h1 h2 h3
      rw [← h1, ← h3]

theorem config_missing_amended_witness :
    appRun (.ok []) .notFound ⟨[], ['c'], false, false⟩ (.ok ()) (.ok ()) =
      .exited 1 true (some (wrapMsg "unable to validate required params".toList
        ("project".toList ++ " undefined".toList))) :=
  (config_missing_amended [] ⟨[], ['c'], false, false⟩ (.ok ()) (.ok ())).1 rfl

/-- Claim C10: with a non-positive limit (never validated as positive)
and unlimited unset, both the list-all and filter-by-field operations
on a non-empty stream still render exactly one document: the bound is
checked only after the first document has been printed. -/
theorem nonpositive_limit_renders_one (pp : Bool) (limit : Int)
    (d : FieldList) (rest : List FetchItem) (field op arg : List Char)
    (streamOf : Predicate → List FetchItem)
    (hlim : limit ≤ 0) (hd : fsupported d = true)
    (hs : streamOf (mkPredicate field op arg) = .fetched d :: rest) :
    renders (documentsRun pp limit false (.fetched d :: rest)).1 =
      [jsonOut pp d] ∧
    (documentsRun pp limit false (.fetched d :: rest)).2 = .ok () ∧
    renders (whereRun pp limit false field op arg streamOf).1 =
      [jsonOut pp d] ∧
    (whereRun pp limit false field op arg streamOf).2 = .ok () := by
  have hbreak := iterateGo_step_break pp limit d rest 1 hd (by omega)
  refine ⟨?_, ?_, ?_, ?_⟩ <;>
    simp [documentsRun, whereRun, iterate, hs, hbreak, renders]

theorem nonpositive_limit_renders_one_witness :
    renders (documentsRun false 0 false
        (.fetched (FieldList.cons ['a'] Value.vnull FieldList.nil) ::
          [.fetched FieldList.nil])).1 =
      [jsonOut false (FieldList.cons ['a'] Value.vnull FieldList.nil)] ∧
    (documentsRun false 0 false
        (.fetched (FieldList.cons ['a'] Value.vnull FieldList.nil) ::
          [.fetched FieldList.nil])).2 = .ok () ∧
    renders (whereRun false 0 false ['f'] ['='] ['v']
        (fun _ => .fetched (FieldList.cons ['a'] Value.vnull FieldList.nil) ::
          [.fetched FieldList.nil])).1 =
      [jsonOut false (FieldList.cons ['a'] Value.vnull FieldList.nil)] ∧
    (whereRun false 0 false ['f'] ['='] ['v']
        (fun _ => .fetched (FieldList.cons ['a'] Value.vnull FieldList.nil) ::
          [.fetched FieldList.nil])).2 = .ok () :=
  nonpositive_limit_renders_one false 0
    (FieldList.cons ['a'] Value.vnull FieldList.nil) [.fetched FieldList.nil]
    ['f'] ['='] ['v']
    (fun _ => .fetched (FieldList.cons ['a'] Value.vnull FieldList.nil) ::
      [.fetched FieldList.nil])
    (by decide) (by decide) rfl

end FirestoreCli
